import Mathlib

/-!
Verification of the generalized bankruptcy/claims-division engine described by
the repository's design specification.  The repository's own texts describe the
division rules (proportional, concede-and-divide, constrained equal awards,
constrained equal losses, and the generalized Talmud rule) in prose only, so
the executable engine below is modelled from the specification's words: exact
rational arithmetic, a validated claim-set model, a threshold ("water-filling")
solver over sorted caps, and the four allocation rules built on top of it.
-/

/-- Modelled from the spec: the error taxonomy of the engine (the engine code
itself is not in the repository, only its prose description).  `claimError` is
raised at claim-set construction, `domainError` by the threshold solver. -/
inductive EngineError where
  | claimError
  | domainError
  deriving DecidableEq, Repr

/-- Modelled from the spec: the closed set of selectable rule identifiers
(`proportional | cea | cel | talmud`). -/
inductive RuleId where
  | proportional
  | cea
  | cel
  | talmud
  deriving DecidableEq, Repr

/-- Modelled from the spec: a claim set is an ordered sequence of rational
claims together with a rational estate value. -/
structure ClaimSet where
  claims : List ℚ
  estate : ℚ
  deriving DecidableEq, Repr

/-- Modelled from the spec: claim-set construction validates its input and
fails with a `ClaimError` when a claim or the estate is negative, or when the
claim list is empty while the estate is non-zero. -/
def mkClaimSet (claims : List ℚ) (estate : ℚ) : Except EngineError ClaimSet :=
  if (∃ c ∈ claims, c < 0) ∨ estate < 0 ∨ (claims = [] ∧ estate ≠ 0) then
    .error .claimError
  else
    .ok ⟨claims, estate⟩

/-- The capped-and-summed function `f(lam) = Σ min(d_i, lam)` of the threshold
problem, over a list of caps. -/
def fsum (ds : List ℚ) (lam : ℚ) : ℚ :=
  (ds.map fun d => min d lam).sum

/-- Modelled from the spec: walk the sorted caps maintaining a running sum `S`
of the caps already saturated below the current breakpoint; within the segment
where the target is reached the capped-sum is linear and we solve the linear
equation for the level.  `walk l S T` processes the remaining sorted caps `l`
against target `T` with `S` the sum of caps already passed. -/
def walk : List ℚ → ℚ → ℚ → ℚ
  | [], _, _ => 0
  | d :: rest, S, T =>
    if T ≤ S + ((rest.length : ℚ) + 1) * d then (T - S) / ((rest.length : ℚ) + 1)
    else walk rest (S + d) T

/-- Modelled from the spec: the threshold solver's core computation — sort the
caps ascending and walk the breakpoints. -/
def solveThreshold (ds : List ℚ) (T : ℚ) : ℚ :=
  walk (List.insertionSort (· ≤ ·) ds) 0 T

/-- Modelled from the spec: the threshold solver.  Given non-negative caps and
a target inside `[0, Σ caps]` it returns the level at which the capped sum hits
the target; otherwise it fails with a `DomainError`. -/
def thresholdSolver (ds : List ℚ) (T : ℚ) : Except EngineError ℚ :=
  if (∀ d ∈ ds, 0 ≤ d) ∧ 0 ≤ T ∧ T ≤ ds.sum then
    .ok (solveThreshold ds T)
  else
    .error .domainError

/-- Modelled from the spec: the proportional rule's scaling,
`x_i = E * c_i / Σ c_j`, or all zeros when the claims sum to zero. -/
def propAlloc (c : List ℚ) (E : ℚ) : List ℚ :=
  if c.sum = 0 then c.map fun _ => 0
  else c.map fun ci => E * ci / c.sum

/-- Modelled from the spec: the generalized Talmud rule on a claim vector:
with half-claims `h_i = c_i / 2`, apply constrained equal awards over the
half-claims with target `E` when `2E ≤ Σ c_i`; otherwise award each claimant
the claim minus the dual half-claim award for the shortfall `Σ c_i - E`. -/
def talmudAllocCore (c : List ℚ) (E : ℚ) : List ℚ :=
  if 2 * E ≤ c.sum then
    c.map fun ci => min (ci / 2) (solveThreshold (c.map fun x => x / 2) E)
  else
    c.map fun ci => ci - min (ci / 2) (solveThreshold (c.map fun x => x / 2) (c.sum - E))

/-- Modelled from the spec: rule evaluation.  Oversized claims are silently
capped to the estate before the rule runs (irrelevance of claims exceeding the
estate); each capped rule is built from the threshold solver, whose failure
surfaces as a `DomainError`. -/
def runRule (r : RuleId) (cs : ClaimSet) : Except EngineError (List ℚ) :=
  let cb := cs.claims.map fun ci => min ci cs.estate
  match r with
  | .proportional => .ok (propAlloc cb cs.estate)
  | .cea =>
    (thresholdSolver cb cs.estate).map fun w => cb.map fun ci => min ci w
  | .cel =>
    (thresholdSolver cb (cb.sum - cs.estate)).map fun w => cb.map fun ci => ci - min ci w
  | .talmud =>
    if 2 * cs.estate ≤ cb.sum then
      (thresholdSolver (cb.map fun x => x / 2) cs.estate).map fun w =>
        cb.map fun ci => min (ci / 2) w
    else
      (thresholdSolver (cb.map fun x => x / 2) (cb.sum - cs.estate)).map fun w =>
        cb.map fun ci => ci - min (ci / 2) w

/-- The per-claimant award as a function of the claim value, for each rule on a
given claim set; every rule's allocation is the map of this function over the
claim list. -/
def coordFn (r : RuleId) (c : List ℚ) (E : ℚ) : ℚ → ℚ :=
  let cb := c.map fun ci => min ci E
  match r with
  | .proportional => fun ci => if cb.sum = 0 then 0 else E * min ci E / cb.sum
  | .cea => fun ci => min (min ci E) (solveThreshold cb E)
  | .cel => fun ci => min ci E - min (min ci E) (solveThreshold cb (cb.sum - E))
  | .talmud => fun ci =>
    if 2 * E ≤ cb.sum then
      min (min ci E / 2) (solveThreshold (cb.map fun x => x / 2) E)
    else
      min ci E - min (min ci E / 2) (solveThreshold (cb.map fun x => x / 2) (cb.sum - E))

/-- The Talmud rule as a pure function on a claim vector and estate, with the
default capping of oversized claims applied first. -/
def talmudRuleFn (c : List ℚ) (E : ℚ) : List ℚ :=
  talmudAllocCore (c.map fun ci => min ci E) E

/-- Modelled from the spec: validity of a claim set for rule evaluation — all
claims non-negative and the estate a non-negative value not exceeding the total
of the claims (the estate is insufficient to cover the claims). -/
def ValidCS (c : List ℚ) (E : ℚ) : Prop :=
  (∀ x ∈ c, 0 ≤ x) ∧ 0 ≤ E ∧ E ≤ c.sum

/-- A rule (as a pure allocation function) is self-dual when its award vector
for an estate plus its award vector for the complementary estate equals the
claim vector. -/
def SelfDualRule (R : List ℚ → ℚ → List ℚ) : Prop :=
  ∀ (cl : List ℚ) (E : ℚ), ValidCS cl E →
    List.zipWith (fun a b => a + b) (R cl E) (R cl (cl.sum - E)) = cl

/-- A rule is order preserving when larger claims never receive strictly
smaller awards. -/
def OrderPreservingRule (R : List ℚ → ℚ → List ℚ) : Prop :=
  ∀ (cl : List ℚ) (E : ℚ), ValidCS cl E →
    ∀ (i j : ℕ) (hxi : i < (R cl E).length) (hxj : j < (R cl E).length)
      (hi : i < cl.length) (hj : j < cl.length),
    cl[i] ≤ cl[j] → (R cl E)[i] ≤ (R cl E)[j]

/-- A rule satisfies the allocation invariants when every award lies between
zero and the corresponding claim and the awards sum exactly to the estate. -/
def RuleInvariants (R : List ℚ → ℚ → List ℚ) : Prop :=
  ∀ (cl : List ℚ) (E : ℚ), ValidCS cl E → (R cl E).sum = E ∧ (R cl E).length = cl.length ∧
    ∀ (i : ℕ) (hxi : i < (R cl E).length) (hi : i < cl.length),
      0 ≤ (R cl E)[i] ∧ (R cl E)[i] ≤ cl[i]

/-- Modelled from the spec: the textual concede-and-divide algorithm for two
claimants — grant each claimant what the other concedes (a claimant asking for
`ci` of estate `E` concedes `E - min(ci, E)`), then split the remaining
disputed portion equally. -/
def concedeAndDivide (c1 c2 E : ℚ) : ℚ × ℚ :=
  let conc1 := E - min c1 E
  let conc2 := E - min c2 E
  let disputed := E - conc1 - conc2
  (conc2 + disputed / 2, conc1 + disputed / 2)

/-! ### List arithmetic helpers -/

lemma sum_map_half (l : List ℚ) : (l.map fun x => x / 2).sum = l.sum / 2 := by
  induction l with
  | nil => simp
  | cons a l ih => simp [ih]; ring

lemma sum_map_sub (l : List ℚ) (f g : ℚ → ℚ) :
    (l.map fun x => f x - g x).sum = (l.map f).sum - (l.map g).sum := by
  induction l with
  | nil => simp
  | cons a l ih => simp [ih]; ring

lemma sum_zero_mem (l : List ℚ) (h : ∀ x ∈ l, 0 ≤ x) (h0 : l.sum = 0) : ∀ x ∈ l, x = 0 := by
  induction l with
  | nil => simp
  | cons a l ih =>
    have ha : 0 ≤ a := h a (by simp)
    have hl : ∀ x ∈ l, 0 ≤ x := fun x hx => h x (by simp [hx])
    have hls : 0 ≤ l.sum := List.sum_nonneg hl
    have hsum : a + l.sum = 0 := by simpa using h0
    have ha0 : a = 0 := by linarith
    have hl0 : l.sum = 0 := by linarith
    intro x hx
    rcases List.mem_cons.1 hx with rfl | hx
    · exact ha0
    · exact ih hl hl0 x hx

lemma map_sum_le_pointwise_eq (l : List ℚ) (f g : ℚ → ℚ) (hfg : ∀ x ∈ l, f x ≤ g x)
    (hsum : (l.map f).sum = (l.map g).sum) : ∀ x ∈ l, f x = g x := by
  induction l with
  | nil => simp
  | cons a l ih =>
    have h1 : f a ≤ g a := hfg a (by simp)
    have h2 : ∀ x ∈ l, f x ≤ g x := fun x hx => hfg x (by simp [hx])
    have h3 : (l.map f).sum ≤ (l.map g).sum := List.sum_le_sum h2
    have hs : f a + (l.map f).sum = g a + (l.map g).sum := by simpa using hsum
    have hfa : f a = g a := by linarith
    have hls : (l.map f).sum = (l.map g).sum := by linarith
    intro x hx
    rcases List.mem_cons.1 hx with rfl | hx
    · exact hfa
    · exact ih h2 hls x hx

lemma exists_max_mem (l : List ℚ) (hne : l ≠ []) : ∃ M ∈ l, ∀ d ∈ l, d ≤ M := by
  induction l with
  | nil => simp at hne
  | cons a l ih =>
    rcases eq_or_ne l [] with rfl | hl
    · exact ⟨a, by simp, by simp⟩
    · obtain ⟨M, hM, hMax⟩ := ih hl
      rcases le_total a M with h | h
      · exact ⟨M, by simp [hM], by
          intro d hd
          rcases List.mem_cons.1 hd with rfl | hd
          · exact h
          · exact hMax d hd⟩
      · exact ⟨a, by simp, by
          intro d hd
          rcases List.mem_cons.1 hd with rfl | hd
          · exact le_rfl
          · exact (hMax d hd).trans h⟩

/-! ### Properties of the capped-sum function `fsum` -/

lemma fsum_nil (lam : ℚ) : fsum [] lam = 0 := rfl

lemma fsum_cons (d : ℚ) (ds : List ℚ) (lam : ℚ) :
    fsum (d :: ds) lam = min d lam + fsum ds lam := by
  simp [fsum]

lemma fsum_append (l₁ l₂ : List ℚ) (lam : ℚ) :
    fsum (l₁ ++ l₂) lam = fsum l₁ lam + fsum l₂ lam := by
  simp [fsum]

lemma fsum_mono (ds : List ℚ) {a b : ℚ} (h : a ≤ b) : fsum ds a ≤ fsum ds b :=
  List.sum_le_sum fun d _ => min_le_min (le_refl d) h

lemma fsum_le_card (ds : List ℚ) (lam : ℚ) : fsum ds lam ≤ (ds.length : ℚ) * lam := by
  induction ds with
  | nil => simp [fsum_nil]
  | cons d ds ih =>
    have h := min_le_right d lam
    rw [fsum_cons]
    push_cast [List.length_cons]
    nlinarith [ih]

lemma fsum_of_le_mem (ds : List ℚ) (lam : ℚ) (h : ∀ d ∈ ds, lam ≤ d) :
    fsum ds lam = (ds.length : ℚ) * lam := by
  induction ds with
  | nil => simp [fsum_nil]
  | cons d ds ih =>
    have hd : lam ≤ d := h d (by simp)
    rw [fsum_cons, min_eq_right hd, ih fun x hx => h x (by simp [hx])]
    push_cast [List.length_cons]
    ring

lemma fsum_sum_of_ge (ds : List ℚ) (lam : ℚ) (h : ∀ d ∈ ds, d ≤ lam) :
    fsum ds lam = ds.sum := by
  unfold fsum
  rw [List.map_congr_left fun d hd => min_eq_left (h d hd)]
  simp

lemma fsum_zero (ds : List ℚ) (h : ∀ d ∈ ds, 0 ≤ d) : fsum ds 0 = 0 := by
  unfold fsum
  rw [List.map_congr_left fun d hd => min_eq_right (h d hd)]
  simp

lemma fsum_le_sum (ds : List ℚ) (lam : ℚ) : fsum ds lam ≤ ds.sum := by
  have := List.sum_le_sum (l := ds) (f := fun d => min d lam) (g := fun d => d)
    (fun d _ => min_le_left d lam)
  simpa [fsum] using this

lemma fsum_perm {ds₁ ds₂ : List ℚ} (h : ds₁.Perm ds₂) (lam : ℚ) :
    fsum ds₁ lam = fsum ds₂ lam :=
  (h.map fun d => min d lam).sum_eq

lemma min_sum_le_fsum (ds : List ℚ) (T : ℚ) (h0 : ∀ d ∈ ds, 0 ≤ d) (hT : 0 ≤ T) :
    min ds.sum T ≤ fsum ds T := by
  induction ds with
  | nil => simp [fsum_nil]
  | cons d ds ih =>
    have hd : 0 ≤ d := h0 d (by simp)
    have hds : ∀ x ∈ ds, 0 ≤ x := fun x hx => h0 x (by simp [hx])
    have hsum : 0 ≤ ds.sum := List.sum_nonneg hds
    have ihh := ih hds
    rw [fsum_cons, List.sum_cons]
    rcases le_total d T with h1 | h1 <;> rcases le_total ds.sum T with h2 | h2 <;>
      rcases le_total (d + ds.sum) T with h3 | h3 <;>
      simp [min_eq_left, min_eq_right, h1, h2, h3] at ihh ⊢ <;> linarith

/-! ### Correctness of the threshold walk -/

lemma walk_correct (l : List ℚ) : ∀ S T : ℚ, l.Sorted (· ≤ ·) → (∀ d ∈ l, 0 ≤ d) →
    S ≤ T → T ≤ S + l.sum →
    0 ≤ walk l S T ∧ fsum l (walk l S T) = T - S ∧
      ∀ v : ℚ, 0 ≤ v → v < walk l S T → fsum l v < T - S := by
  induction l with
  | nil =>
    intro S T _ _ hST hTS
    have hTSeq : T = S := le_antisymm (by simpa using hTS) hST
    refine ⟨le_refl 0, by simp [walk, fsum_nil, hTSeq], ?_⟩
    intro v hv hlt
    exact absurd (by simpa [walk] using hlt) (not_lt.2 hv)
  | cons d rest ih =>
    intro S T hsort h0 hST hTS
    have hd0 : 0 ≤ d := h0 d (by simp)
    have hrest0 : ∀ x ∈ rest, 0 ≤ x := fun x hx => h0 x (by simp [hx])
    have hdle : ∀ x ∈ rest, d ≤ x := (List.sorted_cons.1 hsort).1
    have hrsort : rest.Sorted (· ≤ ·) := (List.sorted_cons.1 hsort).2
    have hnpos : (0:ℚ) < (rest.length : ℚ) + 1 := by positivity
    by_cases hc : T ≤ S + ((rest.length : ℚ) + 1) * d
    · -- the target is reached within the segment ending at this breakpoint
      have hw : walk (d :: rest) S T = (T - S) / ((rest.length : ℚ) + 1) := by
        rw [walk, if_pos hc]
      have hw0 : 0 ≤ (T - S) / ((rest.length : ℚ) + 1) := div_nonneg (by linarith) hnpos.le
      have hwd : (T - S) / ((rest.length : ℚ) + 1) ≤ d := by
        rw [div_le_iff₀ hnpos]
        linarith
      refine ⟨by rw [hw]; exact hw0, ?_, ?_⟩
      · rw [hw, fsum_cons, min_eq_right hwd,
          fsum_of_le_mem rest _ fun x hx => (hwd.trans (hdle x hx))]
        field_simp
        ring
      · intro v hv hlt
        rw [hw] at hlt
        calc fsum (d :: rest) v ≤ ((d :: rest).length : ℚ) * v := fsum_le_card _ v
          _ = ((rest.length : ℚ) + 1) * v := by push_cast [List.length_cons]; ring
          _ < ((rest.length : ℚ) + 1) * ((T - S) / ((rest.length : ℚ) + 1)) :=
              mul_lt_mul_of_pos_left hlt hnpos
          _ = T - S := by field_simp
    · -- this breakpoint saturates; continue the walk with it added to the running sum
      push_neg at hc
      have hnd : d ≤ ((rest.length : ℚ) + 1) * d := le_mul_of_one_le_left hd0 (by have := Nat.cast_nonneg (α := ℚ) rest.length; linarith)
      have hSd : S + d ≤ T := by linarith
      have hTS' : T ≤ S + d + rest.sum := by
        rw [List.sum_cons] at hTS; linarith
      have hw : walk (d :: rest) S T = walk rest (S + d) T := by
        rw [walk, if_neg (by push_neg; exact hc)]
      obtain ⟨ih0, iheq, ihlt⟩ := ih (S + d) T hrsort hrest0 hSd hTS'
      have hdw : d ≤ walk rest (S + d) T := by
        by_contra hdw
        push_neg at hdw
        have hfw : fsum rest (walk rest (S + d) T) = (rest.length : ℚ) * walk rest (S + d) T :=
          fsum_of_le_mem rest _ fun x hx => (hdw.le.trans (hdle x hx))
        have hcount : (rest.length : ℚ) * walk rest (S + d) T ≤ (rest.length : ℚ) * d :=
          mul_le_mul_of_nonneg_left hdw.le (by positivity)
        rw [hfw] at iheq
        nlinarith
      refine ⟨by rw [hw]; exact ih0, ?_, ?_⟩
      · rw [hw, fsum_cons, min_eq_left hdw, iheq]
        ring
      · intro v hv hlt
        rw [hw] at hlt
        rw [fsum_cons]
        rcases le_total d v with hdv | hdv
        · have := ihlt v hv hlt
          rw [min_eq_left hdv]
          linarith
        · have hfv : fsum rest v = (rest.length : ℚ) * v :=
            fsum_of_le_mem rest v fun x hx => (hdv.trans (hdle x hx))
          have hcv : (rest.length : ℚ) * v ≤ (rest.length : ℚ) * d :=
            mul_le_mul_of_nonneg_left hdv (by positivity)
          rw [min_eq_right hdv, hfv]
          nlinarith

/-! ### Correctness of the threshold solver -/

lemma solve_correct (ds : List ℚ) (T : ℚ) (h0 : ∀ d ∈ ds, 0 ≤ d) (hT0 : 0 ≤ T)
    (hTs : T ≤ ds.sum) :
    0 ≤ solveThreshold ds T ∧ fsum ds (solveThreshold ds T) = T ∧
      ∀ v : ℚ, 0 ≤ v → v < solveThreshold ds T → fsum ds v < T := by
  have hperm : (List.insertionSort (· ≤ ·) ds).Perm ds := List.perm_insertionSort _ ds
  have hsort : (List.insertionSort (· ≤ ·) ds).Sorted (· ≤ ·) :=
    List.sorted_insertionSort _ ds
  have h0' : ∀ d ∈ List.insertionSort (· ≤ ·) ds, 0 ≤ d := fun d hd =>
    h0 d (hperm.mem_iff.1 hd)
  have hsum : (List.insertionSort (· ≤ ·) ds).sum = ds.sum := hperm.sum_eq
  obtain ⟨hge, heq, hlt⟩ := walk_correct (List.insertionSort (· ≤ ·) ds) 0 T hsort h0' hT0
    (by rw [hsum]; linarith)
  refine ⟨hge, ?_, ?_⟩
  · rw [solveThreshold, ← fsum_perm hperm]
    simpa using heq
  · intro v hv hvlt
    rw [solveThreshold] at hvlt
    have := hlt v hv hvlt
    rw [fsum_perm hperm] at this
    linarith

lemma solve_le_of_fsum_ge (ds : List ℚ) (T : ℚ) (h0 : ∀ d ∈ ds, 0 ≤ d) (hT0 : 0 ≤ T)
    (hTs : T ≤ ds.sum) {v : ℚ} (hv : 0 ≤ v) (hfv : T ≤ fsum ds v) :
    solveThreshold ds T ≤ v := by
  by_contra hlt
  push_neg at hlt
  exact absurd hfv (not_le.2 ((solve_correct ds T h0 hT0 hTs).2.2 v hv hlt))

lemma alloc_candidate (ds : List ℚ) (T : ℚ) (h0 : ∀ d ∈ ds, 0 ≤ d) (hT0 : 0 ≤ T)
    (hTs : T ≤ ds.sum) (mu : ℚ) (hmu0 : 0 ≤ mu) (hmueq : fsum ds mu = T) :
    ∀ d ∈ ds, min d (solveThreshold ds T) = min d mu := by
  obtain ⟨hge, heq, _⟩ := solve_correct ds T h0 hT0 hTs
  have hle : solveThreshold ds T ≤ mu := solve_le_of_fsum_ge ds T h0 hT0 hTs hmu0 hmueq.ge
  exact map_sum_le_pointwise_eq ds (fun d => min d (solveThreshold ds T)) (fun d => min d mu)
    (fun d _ => min_le_min (le_refl d) hle) (by rw [← fsum, ← fsum, heq, hmueq])

/-! ### Capped claims -/

lemma capped_nonneg (c : List ℚ) (E : ℚ) (h0 : ∀ x ∈ c, 0 ≤ x) (hE0 : 0 ≤ E) :
    ∀ m ∈ c.map fun ci => min ci E, 0 ≤ m := by
  intro m hm
  obtain ⟨ci, hci, rfl⟩ := List.mem_map.1 hm
  exact le_min (h0 ci hci) hE0

lemma capped_sum_le (c : List ℚ) (E : ℚ) :
    (c.map fun ci => min ci E).sum ≤ c.sum := by
  have := List.sum_le_sum (l := c) (f := fun ci => min ci E) (g := fun ci => ci)
    (fun ci _ => min_le_left ci E)
  simpa using this

lemma le_capped_sum (c : List ℚ) (E : ℚ) (h0 : ∀ x ∈ c, 0 ≤ x) (hE0 : 0 ≤ E)
    (hEc : E ≤ c.sum) : E ≤ (c.map fun ci => min ci E).sum := by
  have h := min_sum_le_fsum c E h0 hE0
  rw [min_eq_right hEc] at h
  exact h

lemma half_min (a b : ℚ) : min a b / 2 = min (a / 2) (b / 2) := by
  rcases le_total a b with h | h
  · rw [min_eq_left h, min_eq_left (by linarith)]
  · rw [min_eq_right h, min_eq_right (by linarith)]

lemma min_cap_half (x E w : ℚ) (hw : w ≤ E / 2) :
    min (min x E / 2) w = min (x / 2) w := by
  rw [half_min, min_assoc, min_eq_right hw]

lemma thresholdSolver_ok (ds : List ℚ) (T : ℚ) (h0 : ∀ d ∈ ds, 0 ≤ d) (hT0 : 0 ≤ T)
    (hTs : T ≤ ds.sum) : thresholdSolver ds T = .ok (solveThreshold ds T) := by
  rw [thresholdSolver, if_pos ⟨h0, hT0, hTs⟩]

lemma run_ok (r : RuleId) (c : List ℚ) (E : ℚ) (hv : ValidCS c E) :
    runRule r ⟨c, E⟩ = .ok (c.map (coordFn r c E)) := by
  obtain ⟨h0, hE0, hEc⟩ := hv
  have hcb0 : ∀ m ∈ c.map fun ci => min ci E, 0 ≤ m := capped_nonneg c E h0 hE0
  have hEcb : E ≤ (c.map fun ci => min ci E).sum := le_capped_sum c E h0 hE0 hEc
  have hcbs0 : 0 ≤ (c.map fun ci => min ci E).sum := List.sum_nonneg hcb0
  cases r with
  | proportional =>
    simp only [runRule, coordFn, propAlloc]
    by_cases h : (c.map fun ci => min ci E).sum = 0
    · simp [h, List.map_map, Function.comp_def, List.map_const]
    · simp [h, List.map_map, Function.comp_def]
  | cea =>
    simp only [runRule, coordFn]
    rw [thresholdSolver_ok _ _ hcb0 hE0 hEcb]
    simp [Except.map, List.map_map, Function.comp_def]
  | cel =>
    simp only [runRule, coordFn]
    rw [thresholdSolver_ok _ _ hcb0 (by linarith) (by linarith)]
    simp [Except.map, List.map_map, Function.comp_def]
  | talmud =>
    have hh0 : ∀ d ∈ (c.map fun ci => min ci E).map fun x => x / 2, 0 ≤ d := by
      intro d hd
      obtain ⟨m, hm, rfl⟩ := List.mem_map.1 hd
      have := hcb0 m hm
      linarith
    have hhs : ((c.map fun ci => min ci E).map fun x => x / 2).sum
        = (c.map fun ci => min ci E).sum / 2 := sum_map_half _
    simp only [runRule, coordFn]
    by_cases h : 2 * E ≤ (c.map fun ci => min ci E).sum
    · rw [if_pos h, thresholdSolver_ok _ _ hh0 hE0 (by rw [hhs]; linarith)]
      simp only [Except.map, List.map_map, Function.comp_def]
      rw [List.map_congr_left]
      intro a _
      rw [if_pos h]
    · push_neg at h
      rw [if_neg (not_le.2 h), thresholdSolver_ok _ _ hh0 (by linarith) (by rw [hhs]; linarith)]
      simp only [Except.map, List.map_map, Function.comp_def]
      rw [List.map_congr_left]
      intro a _
      rw [if_neg (not_le.2 h)]

/-! ### Per-coordinate properties of the rules -/

lemma sub_min_mono {w a b : ℚ} (hab : a ≤ b) : a - min a w ≤ b - min b w := by
  rcases le_total a w with h1 | h1 <;> rcases le_total b w with h2 | h2 <;>
    simp [min_eq_left, min_eq_right, h1, h2] <;> linarith

lemma sub_min_half_mono {w a b : ℚ} (hab : a ≤ b) :
    a - min (a / 2) w ≤ b - min (b / 2) w := by
  rcases le_total (a / 2) w with h1 | h1 <;> rcases le_total (b / 2) w with h2 | h2 <;>
    simp [min_eq_left, min_eq_right, h1, h2] <;> linarith

lemma coordFn_talmud_of_le (c : List ℚ) (E : ℚ)
    (h : 2 * E ≤ (c.map fun ci => min ci E).sum) :
    coordFn .talmud c E = fun ci =>
      min (min ci E / 2)
        (solveThreshold ((c.map fun ci => min ci E).map fun x => x / 2) E) := by
  funext ci
  simp only [coordFn]
  rw [if_pos h]

lemma coordFn_talmud_of_gt (c : List ℚ) (E : ℚ)
    (h : ¬ 2 * E ≤ (c.map fun ci => min ci E).sum) :
    coordFn .talmud c E = fun ci =>
      min ci E - min (min ci E / 2)
        (solveThreshold ((c.map fun ci => min ci E).map fun x => x / 2)
          ((c.map fun ci => min ci E).sum - E)) := by
  funext ci
  simp only [coordFn]
  rw [if_neg h]

lemma coord_mono (r : RuleId) (c : List ℚ) (E : ℚ) (hv : ValidCS c E) :
    ∀ a b : ℚ, a ≤ b → coordFn r c E a ≤ coordFn r c E b := by
  obtain ⟨h0, hE0, hEc⟩ := hv
  have hcb0 : ∀ m ∈ c.map fun ci => min ci E, 0 ≤ m := capped_nonneg c E h0 hE0
  have hcbs0 : 0 ≤ (c.map fun ci => min ci E).sum := List.sum_nonneg hcb0
  intro a b hab
  have hmin : min a E ≤ min b E := min_le_min hab (le_refl E)
  cases r with
  | proportional =>
    simp only [coordFn]
    by_cases h : (c.map fun ci => min ci E).sum = 0
    · simp [h]
    · have hpos : 0 < (c.map fun ci => min ci E).sum := lt_of_le_of_ne hcbs0 (Ne.symm h)
      rw [if_neg h, if_neg h]
      exact (div_le_div_iff_of_pos_right hpos).2 (mul_le_mul_of_nonneg_left hmin hE0)
  | cea =>
    simp only [coordFn]
    exact min_le_min hmin (le_refl _)
  | cel =>
    simp only [coordFn]
    exact sub_min_mono hmin
  | talmud =>
    by_cases h : 2 * E ≤ (c.map fun ci => min ci E).sum
    · rw [coordFn_talmud_of_le c E h]
      exact min_le_min (by linarith) (le_refl _)
    · rw [coordFn_talmud_of_gt c E h]
      exact sub_min_half_mono hmin

lemma coord_bounds (r : RuleId) (c : List ℚ) (E : ℚ) (hv : ValidCS c E) :
    ∀ ci ∈ c, 0 ≤ coordFn r c E ci ∧ coordFn r c E ci ≤ min ci E := by
  obtain ⟨h0, hE0, hEc⟩ := hv
  have hcb0 : ∀ m ∈ c.map fun ci => min ci E, 0 ≤ m := capped_nonneg c E h0 hE0
  have hEcb : E ≤ (c.map fun ci => min ci E).sum := le_capped_sum c E h0 hE0 hEc
  have hcbs0 : 0 ≤ (c.map fun ci => min ci E).sum := List.sum_nonneg hcb0
  have hh0 : ∀ d ∈ (c.map fun ci => min ci E).map fun x => x / 2, 0 ≤ d := by
    intro d hd
    obtain ⟨m, hm, rfl⟩ := List.mem_map.1 hd
    have := hcb0 m hm
    linarith
  have hhs : ((c.map fun ci => min ci E).map fun x => x / 2).sum
      = (c.map fun ci => min ci E).sum / 2 := sum_map_half _
  intro ci hci
  have hm0 : 0 ≤ min ci E := le_min (h0 ci hci) hE0
  cases r with
  | proportional =>
    simp only [coordFn]
    by_cases h : (c.map fun ci => min ci E).sum = 0
    · simp [h, hm0]
    · have hpos : 0 < (c.map fun ci => min ci E).sum := lt_of_le_of_ne hcbs0 (Ne.symm h)
      rw [if_neg h]
      constructor
      · exact div_nonneg (mul_nonneg hE0 hm0) hcbs0
      · rw [div_le_iff₀ hpos]
        nlinarith
  | cea =>
    have hw0 : 0 ≤ solveThreshold (c.map fun ci => min ci E) E :=
      (solve_correct _ E hcb0 hE0 hEcb).1
    simp only [coordFn]
    exact ⟨le_min hm0 hw0, min_le_left _ _⟩
  | cel =>
    have hw0 : 0 ≤ solveThreshold (c.map fun ci => min ci E)
        ((c.map fun ci => min ci E).sum - E) :=
      (solve_correct _ _ hcb0 (by linarith) (by linarith)).1
    simp only [coordFn]
    constructor
    · have := min_le_left (min ci E) (solveThreshold (c.map fun ci => min ci E)
        ((c.map fun ci => min ci E).sum - E))
      linarith
    · have := le_min hm0 hw0
      linarith
  | talmud =>
    by_cases h : 2 * E ≤ (c.map fun ci => min ci E).sum
    · have hw0 : 0 ≤ solveThreshold ((c.map fun ci => min ci E).map fun x => x / 2) E :=
        (solve_correct _ E hh0 hE0 (by rw [hhs]; linarith)).1
      rw [coordFn_talmud_of_le c E h]
      refine ⟨le_min (by linarith) hw0, ?_⟩
      exact (min_le_left _ _).trans (by linarith)
    · push_neg at h
      have hw0 : 0 ≤ solveThreshold ((c.map fun ci => min ci E).map fun x => x / 2)
          ((c.map fun ci => min ci E).sum - E) :=
        (solve_correct _ _ hh0 (by linarith) (by rw [hhs]; linarith)).1
      rw [coordFn_talmud_of_gt c E (not_le.2 h)]
      constructor
      · have := min_le_left (min ci E / 2) (solveThreshold
          ((c.map fun ci => min ci E).map fun x => x / 2)
          ((c.map fun ci => min ci E).sum - E))
        linarith
      · have := le_min (by linarith : (0:ℚ) ≤ min ci E / 2) hw0
        linarith

lemma coord_sum (r : RuleId) (c : List ℚ) (E : ℚ) (hv : ValidCS c E) :
    (c.map (coordFn r c E)).sum = E := by
  obtain ⟨h0, hE0, hEc⟩ := hv
  have hcb0 : ∀ m ∈ c.map fun ci => min ci E, 0 ≤ m := capped_nonneg c E h0 hE0
  have hEcb : E ≤ (c.map fun ci => min ci E).sum := le_capped_sum c E h0 hE0 hEc
  have hh0 : ∀ d ∈ (c.map fun ci => min ci E).map fun x => x / 2, 0 ≤ d := by
    intro d hd
    obtain ⟨m, hm, rfl⟩ := List.mem_map.1 hd
    have := hcb0 m hm
    linarith
  have hhs : ((c.map fun ci => min ci E).map fun x => x / 2).sum
      = (c.map fun ci => min ci E).sum / 2 := sum_map_half _
  cases r with
  | proportional =>
    simp only [coordFn]
    by_cases h : (c.map fun ci => min ci E).sum = 0
    · have hE : E = 0 := le_antisymm (by rw [h] at hEcb; linarith) hE0
      simp [h, hE]
    · have hrw : (c.map fun ci => if (c.map fun ci => min ci E).sum = 0 then 0
          else E * min ci E / (c.map fun ci => min ci E).sum)
          = c.map fun ci => (E / (c.map fun ci => min ci E).sum) * min ci E := by
        apply List.map_congr_left
        intro a _
        rw [if_neg h, div_mul_eq_mul_div, mul_div_assoc]
      rw [hrw, List.sum_map_mul_left]
      field_simp
  | cea =>
    have heq := (solve_correct _ E hcb0 hE0 hEcb).2.1
    simp only [coordFn]
    rw [fsum, List.map_map] at heq
    simpa [Function.comp_def] using heq
  | cel =>
    have heq := (solve_correct (c.map fun ci => min ci E)
      ((c.map fun ci => min ci E).sum - E) hcb0 (by linarith) (by linarith)).2.1
    simp only [coordFn]
    rw [sum_map_sub c (fun ci => min ci E)
      (fun ci => min (min ci E) (solveThreshold (c.map fun ci => min ci E)
        ((c.map fun ci => min ci E).sum - E)))]
    rw [fsum, List.map_map] at heq
    simp only [Function.comp_def] at heq
    rw [heq]
    ring
  | talmud =>
    by_cases h : 2 * E ≤ (c.map fun ci => min ci E).sum
    · have heq := (solve_correct _ E hh0 hE0 (by rw [hhs]; linarith)).2.1
      rw [coordFn_talmud_of_le c E h]
      rw [fsum, List.map_map, List.map_map] at heq
      simpa [Function.comp_def] using heq
    · push_neg at h
      have heq := (solve_correct ((c.map fun ci => min ci E).map fun x => x / 2)
        ((c.map fun ci => min ci E).sum - E) hh0 (by linarith) (by rw [hhs]; linarith)).2.1
      rw [coordFn_talmud_of_gt c E (not_le.2 h)]
      rw [sum_map_sub c (fun ci => min ci E)
        (fun ci => min (min ci E / 2) (solveThreshold
          ((c.map fun ci => min ci E).map fun x => x / 2)
          ((c.map fun ci => min ci E).sum - E)))]
      rw [fsum, List.map_map, List.map_map] at heq
      simp only [Function.comp_def] at heq
      rw [heq]
      ring

/-! ### Self-duality of the Talmud construction -/

lemma zipWith_map_same {α β γ δ : Type} (f : β → γ → δ) (g : α → β) (h : α → γ)
    (l : List α) :
    List.zipWith f (l.map g) (l.map h) = l.map fun x => f (g x) (h x) := by
  induction l with
  | nil => rfl
  | cons a l ih => simp [ih]

lemma talmud_core_selfdual (c : List ℚ) (E : ℚ) (h0 : ∀ x ∈ c, 0 ≤ x) (hE0 : 0 ≤ E)
    (hEC : E ≤ c.sum) :
    List.zipWith (fun a b => a + b) (talmudAllocCore c E)
      (talmudAllocCore c (c.sum - E)) = c := by
  have hh0 : ∀ d ∈ c.map fun x => x / 2, 0 ≤ d := by
    intro d hd
    obtain ⟨x, hx, rfl⟩ := List.mem_map.1 hd
    have := h0 x hx
    linarith
  have hhs : (c.map fun x => x / 2).sum = c.sum / 2 := sum_map_half c
  rcases lt_trichotomy (2 * E) c.sum with h | h | h
  · -- strictly below the halfway estate: branch A at `E`, branch B at the dual estate
    have h1 : talmudAllocCore c E = c.map fun ci =>
        min (ci / 2) (solveThreshold (c.map fun x => x / 2) E) := by
      rw [talmudAllocCore, if_pos h.le]
    have hc2 : ¬ 2 * (c.sum - E) ≤ c.sum := by push_neg; linarith
    have hdual : c.sum - (c.sum - E) = E := by ring
    have h2 : talmudAllocCore c (c.sum - E) = c.map fun ci =>
        ci - min (ci / 2) (solveThreshold (c.map fun x => x / 2) E) := by
      rw [talmudAllocCore, if_neg hc2, hdual]
    rw [h1, h2, zipWith_map_same]
    have hfun : ∀ x ∈ c, min (x / 2) (solveThreshold (c.map fun x => x / 2) E) +
        (x - min (x / 2) (solveThreshold (c.map fun x => x / 2) E)) = x := by
      intro x _
      ring
    rw [List.map_congr_left hfun]
    simp
  · -- the halfway estate: both sides use branch A and every half-claim saturates
    have hEeq : c.sum - E = E := by linarith
    have h1 : talmudAllocCore c E = c.map fun ci =>
        min (ci / 2) (solveThreshold (c.map fun x => x / 2) E) := by
      rw [talmudAllocCore, if_pos h.le]
    have heq := (solve_correct (c.map fun x => x / 2) E hh0 hE0 (by rw [hhs]; linarith)).2.1
    have hsat : ∀ d ∈ c.map fun x => x / 2,
        min d (solveThreshold (c.map fun x => x / 2) E) = d := by
      apply map_sum_le_pointwise_eq _ _ (fun d => d) (fun d _ => min_le_left _ _)
      have h2' : (((c.map fun x => x / 2)).map fun d => d).sum = E := by
        simp only [List.map_id_fun', id]
        rw [hhs]
        linarith
      rw [← fsum, heq, h2']
    rw [hEeq, h1, zipWith_map_same]
    have hfun : ∀ x ∈ c, min (x / 2) (solveThreshold (c.map fun x => x / 2) E) +
        min (x / 2) (solveThreshold (c.map fun x => x / 2) E) = x := by
      intro x hx
      have := hsat (x / 2) (List.mem_map_of_mem _ hx)
      rw [this]
      ring
    rw [List.map_congr_left hfun]
    simp
  · -- above the halfway estate: branch B at `E`, branch A at the dual estate
    have hc1 : ¬ 2 * E ≤ c.sum := by push_neg; exact h
    have hc2 : 2 * (c.sum - E) ≤ c.sum := by linarith
    have h1 : talmudAllocCore c E = c.map fun ci =>
        ci - min (ci / 2) (solveThreshold (c.map fun x => x / 2) (c.sum - E)) := by
      rw [talmudAllocCore, if_neg hc1]
    have h2 : talmudAllocCore c (c.sum - E) = c.map fun ci =>
        min (ci / 2) (solveThreshold (c.map fun x => x / 2) (c.sum - E)) := by
      rw [talmudAllocCore, if_pos hc2]
    rw [h1, h2, zipWith_map_same]
    have hfun : ∀ x ∈ c,
        (x - min (x / 2) (solveThreshold (c.map fun x => x / 2) (c.sum - E))) +
        min (x / 2) (solveThreshold (c.map fun x => x / 2) (c.sum - E)) = x := by
      intro x _
      ring
    rw [List.map_congr_left hfun]
    simp

lemma fsum_halves_sat (l : List ℚ) (v : ℚ) (h : ∀ x ∈ l, x / 2 ≤ v) :
    fsum (l.map fun x => x / 2) v = l.sum / 2 := by
  rw [fsum_sum_of_ge, sum_map_half]
  intro d hd
  obtain ⟨x, hx, rfl⟩ := List.mem_map.1 hd
  exact h x hx


lemma talmud_truncation (c : List ℚ) (E : ℚ) (h0 : ∀ x ∈ c, 0 ≤ x) (hE0 : 0 ≤ E)
    (hEC : E ≤ c.sum) :
    talmudAllocCore (c.map fun ci => min ci E) E = talmudAllocCore c E := by
  have hcb0 : ∀ x ∈ c.map fun ci => min ci E, 0 ≤ x := capped_nonneg c E h0 hE0
  have hEcb : E ≤ (c.map fun ci => min ci E).sum := le_capped_sum c E h0 hE0 hEC
  have hcbsum_le : (c.map fun ci => min ci E).sum ≤ c.sum := capped_sum_le c E
  have hh0u : ∀ d ∈ c.map fun x => x / 2, 0 ≤ d := by
    intro d hd
    obtain ⟨x, hx, rfl⟩ := List.mem_map.1 hd
    have := h0 x hx
    linarith
  have hh0c : ∀ d ∈ (c.map fun ci => min ci E).map fun x => x / 2, 0 ≤ d := by
    intro d hd
    obtain ⟨x, hx, rfl⟩ := List.mem_map.1 hd
    have := hcb0 x hx
    linarith
  by_cases hA : 2 * E ≤ (c.map fun ci => min ci E).sum
  · -- both sides in the constrained-equal-awards branch over half claims
    obtain ⟨hu0, hueq, _⟩ := solve_correct (c.map fun x => x / 2) E hh0u hE0
      (by rw [sum_map_half]; linarith)
    have hwuE2 : solveThreshold (c.map fun x => x / 2) E ≤ E / 2 := by
      apply solve_le_of_fsum_ge (c.map fun x => x / 2) E hh0u hE0
        (by rw [sum_map_half]; linarith) (by linarith)
      have hfE2 : fsum (c.map fun x => x / 2) (E / 2)
          = (c.map fun ci => min ci E).sum / 2 := by
        rw [fsum, List.map_map]
        rw [List.map_congr_left (fun x _ => by
          simp only [Function.comp_def]
          exact (half_min x E).symm : ∀ x ∈ c, ((fun d => min d (E / 2)) ∘ fun x => x / 2) x
            = min x E / 2)]
        rw [← sum_map_half (c.map fun ci => min ci E), List.map_map]
        rfl
      rw [hfE2]
      linarith
    have hfc : fsum ((c.map fun ci => min ci E).map fun x => x / 2)
        (solveThreshold (c.map fun x => x / 2) E) = E := by
      rw [fsum, List.map_map, List.map_map]
      rw [List.map_congr_left (fun x _ => by
        simp only [Function.comp_def]
        exact min_cap_half x E _ hwuE2 : ∀ x ∈ c,
          (((fun d => min d (solveThreshold (c.map fun x => x / 2) E)) ∘
            fun x => x / 2) ∘ fun ci => min ci E) x
          = min (x / 2) (solveThreshold (c.map fun x => x / 2) E))]
      rw [fsum, List.map_map] at hueq
      simp only [Function.comp_def] at hueq ⊢
      exact hueq
    have hcand := alloc_candidate ((c.map fun ci => min ci E).map fun x => x / 2) E hh0c hE0
      (by rw [sum_map_half]; linarith) (solveThreshold (c.map fun x => x / 2) E) hu0 hfc
    rw [talmudAllocCore, talmudAllocCore, if_pos hA, if_pos (hA.trans hcbsum_le),
      List.map_map]
    apply List.map_congr_left
    intro x hx
    simp only [Function.comp_def]
    have hmem : min x E / 2 ∈ (c.map fun ci => min ci E).map fun y => y / 2 :=
      List.mem_map_of_mem _ (List.mem_map_of_mem _ hx)
    rw [hcand _ hmem, min_cap_half x E _ hwuE2]
  · by_cases hEx : ∃ m ∈ c, E < m
    · obtain ⟨m, hmc, hEm⟩ := hEx
      obtain ⟨s, t, rfl⟩ := List.append_of_mem hmc
      have hminm : min m E = E := min_eq_right hEm.le
      have hcbsum0 : ((s ++ m :: t).map fun ci => min ci E).sum
          = (s.map fun ci => min ci E).sum + (E + (t.map fun ci => min ci E).sum) := by
        simp [hminm]
      have hs0map : ∀ x ∈ s.map fun ci => min ci E, 0 ≤ x := by
        intro x hx
        exact hcb0 x (by rw [List.map_append]; exact List.mem_append_left _ hx)
      have ht0map : ∀ x ∈ t.map fun ci => min ci E, 0 ≤ x := by
        intro x hx
        refine hcb0 x ?_
        rw [List.map_append]
        exact List.mem_append_right _ (by rw [List.map_cons]; exact List.mem_cons_of_mem _ hx)
      have hsmall : ∀ x ∈ s ++ t, x ≤ E := by
        intro x hx
        by_contra hxE
        push_neg at hxE
        have hminx : min x E = E := min_eq_right hxE.le
        rcases List.mem_append.1 hx with hxs | hxt
        · have h1 : min x E ≤ (s.map fun ci => min ci E).sum :=
            List.single_le_sum hs0map _ (List.mem_map_of_mem _ hxs)
          have h2 : 0 ≤ (t.map fun ci => min ci E).sum := List.sum_nonneg ht0map
          rw [hminx] at h1
          rw [hcbsum0] at hA
          push_neg at hA
          linarith
        · have h1 : min x E ≤ (t.map fun ci => min ci E).sum :=
            List.single_le_sum ht0map _ (List.mem_map_of_mem _ hxt)
          have h2 : 0 ≤ (s.map fun ci => min ci E).sum := List.sum_nonneg hs0map
          rw [hminx] at h1
          rw [hcbsum0] at hA
          push_neg at hA
          linarith
      have hs_id : s.map (fun ci => min ci E) = s := by
        rw [List.map_congr_left fun x hx =>
          min_eq_left (hsmall x (List.mem_append_left t hx))]
        simp
      have ht_id : t.map (fun ci => min ci E) = t := by
        rw [List.map_congr_left fun x hx =>
          min_eq_left (hsmall x (List.mem_append_right s hx))]
        simp
      have hcb_struct : (s ++ m :: t).map (fun ci => min ci E) = s ++ E :: t := by
        simp [hminm, hs_id, ht_id]
      have hs0 : 0 ≤ s.sum := List.sum_nonneg fun x hx => h0 x (by simp [hx])
      have ht0 : 0 ≤ t.sum := List.sum_nonneg fun x hx => h0 x (by simp [hx])
      have hm0 : 0 ≤ m := h0 m (by simp)
      have hcbsum : ((s ++ m :: t).map fun ci => min ci E).sum = s.sum + (E + t.sum) := by
        rw [hcb_struct]
        simp
      have hCsum : (s ++ m :: t).sum = s.sum + (m + t.sum) := by simp
      have hAlt : s.sum + (E + t.sum) < 2 * E := by
        rw [hcbsum] at hA
        push_neg at hA
        exact hA
      have hDlt : s.sum + t.sum < E := by linarith
      have hxD : ∀ x ∈ s ++ t, x ≤ s.sum + t.sum := by
        intro x hx
        rcases List.mem_append.1 hx with hxs | hxt
        · have := List.single_le_sum (fun y hy => h0 y (by simp [hy])) x hxs
          linarith
        · have := List.single_le_sum (fun y hy => h0 y (by simp [hy])) x hxt
          linarith
      -- the capped problem's candidate level is half the total of the small claims
      have hfsc : fsum (((s ++ m :: t).map fun ci => min ci E).map fun x => x / 2)
          ((s.sum + t.sum) / 2)
          = ((s ++ m :: t).map fun ci => min ci E).sum - E := by
        rw [hcb_struct, List.map_append, List.map_cons, fsum_append, fsum_cons,
          fsum_halves_sat s _ (fun x hx => by
            have := hxD x (List.mem_append_left t hx); linarith),
          fsum_halves_sat t _ (fun x hx => by
            have := hxD x (List.mem_append_right s hx); linarith),
          min_eq_right (by linarith : (s.sum + t.sum) / 2 ≤ E / 2),
          List.sum_append, List.sum_cons]
        ring
      have hcandc := alloc_candidate
        (((s ++ m :: t).map fun ci => min ci E).map fun x => x / 2)
        (((s ++ m :: t).map fun ci => min ci E).sum - E) hh0c
        (by rw [hcbsum]; linarith)
        (by rw [sum_map_half, hcbsum]; linarith)
        ((s.sum + t.sum) / 2) (by linarith) hfsc
      by_cases hB : 2 * E ≤ (s ++ m :: t).sum
      · -- uncapped side still awards constrained-equal half claims
        have hBsum : 2 * E ≤ s.sum + (m + t.sum) := by rw [← hCsum]; exact hB
        have hlam0 : (0:ℚ) ≤ E - (s.sum + t.sum) / 2 := by linarith
        have hlamm : E - (s.sum + t.sum) / 2 ≤ m / 2 := by linarith
        have hfsu : fsum ((s ++ m :: t).map fun x => x / 2) (E - (s.sum + t.sum) / 2)
            = E := by
          rw [List.map_append, List.map_cons, fsum_append, fsum_cons,
            fsum_halves_sat s _ (fun x hx => by
              have := hxD x (List.mem_append_left t hx); linarith),
            fsum_halves_sat t _ (fun x hx => by
              have := hxD x (List.mem_append_right s hx); linarith),
            min_eq_right hlamm]
          ring
        have hcandu := alloc_candidate ((s ++ m :: t).map fun x => x / 2) E hh0u hE0
          (by rw [sum_map_half, hCsum]; linarith) (E - (s.sum + t.sum) / 2) hlam0 hfsu
        rw [talmudAllocCore, talmudAllocCore, if_neg hA, if_pos hB, List.map_map]
        apply List.map_congr_left
        intro x hx
        simp only [Function.comp_def]
        have hmemc : min x E / 2 ∈ ((s ++ m :: t).map fun ci => min ci E).map
            fun y => y / 2 := List.mem_map_of_mem _ (List.mem_map_of_mem _ hx)
        have hmemu : x / 2 ∈ (s ++ m :: t).map fun y => y / 2 :=
          List.mem_map_of_mem _ hx
        rw [hcandc _ hmemc, hcandu _ hmemu]
        rcases List.mem_append.1 hx with hxs | hxmt
        · have hxE : x ≤ E := hsmall x (List.mem_append_left t hxs)
          have hxsat : x / 2 ≤ (s.sum + t.sum) / 2 := by
            have := hxD x (List.mem_append_left t hxs); linarith
          rw [min_eq_left hxE, min_eq_left hxsat,
            min_eq_left (by linarith : x / 2 ≤ E - (s.sum + t.sum) / 2)]
          ring
        · rcases List.mem_cons.1 hxmt with rfl | hxt
          · rw [hminm, min_eq_right (by linarith : (s.sum + t.sum) / 2 ≤ E / 2),
              min_eq_right hlamm]
          · have hxE : x ≤ E := hsmall x (List.mem_append_right s hxt)
            have hxsat : x / 2 ≤ (s.sum + t.sum) / 2 := by
              have := hxD x (List.mem_append_right s hxt); linarith
            rw [min_eq_left hxE, min_eq_left hxsat,
              min_eq_left (by linarith : x / 2 ≤ E - (s.sum + t.sum) / 2)]
            ring
      · -- both sides in the dual branch
        push_neg at hB
        have hBsum : s.sum + (m + t.sum) < 2 * E := by rw [← hCsum]; exact hB
        have hzeta0 : (0:ℚ) ≤ (s.sum + t.sum) / 2 + m - E := by linarith
        have hzetam : (s.sum + t.sum) / 2 + m - E ≤ m / 2 := by linarith
        have hfsu : fsum ((s ++ m :: t).map fun x => x / 2)
            ((s.sum + t.sum) / 2 + m - E) = (s ++ m :: t).sum - E := by
          rw [List.map_append, List.map_cons, fsum_append, fsum_cons,
            fsum_halves_sat s _ (fun x hx => by
              have := hxD x (List.mem_append_left t hx); linarith),
            fsum_halves_sat t _ (fun x hx => by
              have := hxD x (List.mem_append_right s hx); linarith),
            min_eq_right hzetam, hCsum]
          ring
        have hcandu := alloc_candidate ((s ++ m :: t).map fun x => x / 2)
          ((s ++ m :: t).sum - E) hh0u (by rw [hCsum]; linarith)
          (by rw [sum_map_half, hCsum]; linarith)
          ((s.sum + t.sum) / 2 + m - E) hzeta0 hfsu
        rw [talmudAllocCore, talmudAllocCore, if_neg hA,
          if_neg (by rw [hCsum]; push_neg; linarith), List.map_map]
        apply List.map_congr_left
        intro x hx
        simp only [Function.comp_def]
        have hmemc : min x E / 2 ∈ ((s ++ m :: t).map fun ci => min ci E).map
            fun y => y / 2 := List.mem_map_of_mem _ (List.mem_map_of_mem _ hx)
        have hmemu : x / 2 ∈ (s ++ m :: t).map fun y => y / 2 :=
          List.mem_map_of_mem _ hx
        rw [hcandc _ hmemc, hcandu _ hmemu]
        rcases List.mem_append.1 hx with hxs | hxmt
        · have hxE : x ≤ E := hsmall x (List.mem_append_left t hxs)
          have hxsat : x / 2 ≤ (s.sum + t.sum) / 2 := by
            have := hxD x (List.mem_append_left t hxs); linarith
          rw [min_eq_left hxE, min_eq_left hxsat,
            min_eq_left (by linarith : x / 2 ≤ (s.sum + t.sum) / 2 + m - E)]
        · rcases List.mem_cons.1 hxmt with rfl | hxt
          · rw [hminm, min_eq_right (by linarith : (s.sum + t.sum) / 2 ≤ E / 2),
              min_eq_right hzetam]
            ring
          · have hxE : x ≤ E := hsmall x (List.mem_append_right s hxt)
            have hxsat : x / 2 ≤ (s.sum + t.sum) / 2 := by
              have := hxD x (List.mem_append_right s hxt); linarith
            rw [min_eq_left hxE, min_eq_left hxsat,
              min_eq_left (by linarith : x / 2 ≤ (s.sum + t.sum) / 2 + m - E)]
    · push_neg at hEx
      have hid : c.map (fun ci => min ci E) = c := by
        rw [List.map_congr_left fun x hx => min_eq_left (hEx x hx)]
        simp
      rw [hid]

/-! ### Rule-level properties -/

lemma talmudRuleFn_eq_coord (c : List ℚ) (E : ℚ) :
    talmudRuleFn c E = c.map (coordFn .talmud c E) := by
  rw [talmudRuleFn, talmudAllocCore]
  by_cases h : 2 * E ≤ (c.map fun ci => min ci E).sum
  · rw [if_pos h, coordFn_talmud_of_le c E h, List.map_map]
    simp [Function.comp_def]
  · rw [if_neg h, coordFn_talmud_of_gt c E h, List.map_map]
    simp [Function.comp_def]

lemma run_talmud_ok (c : List ℚ) (E : ℚ) (hv : ValidCS c E) :
    runRule .talmud ⟨c, E⟩ = .ok (talmudRuleFn c E) := by
  rw [run_ok .talmud c E hv, talmudRuleFn_eq_coord]

lemma talmud_fn_selfdual : SelfDualRule talmudRuleFn := by
  intro cl E hv
  obtain ⟨h0, hE0, hEC⟩ := hv
  rw [talmudRuleFn, talmudRuleFn, talmud_truncation cl E h0 hE0 hEC,
    talmud_truncation cl (cl.sum - E) h0 (by linarith) (by linarith)]
  exact talmud_core_selfdual cl E h0 hE0 hEC

lemma talmud_fn_orderpres : OrderPreservingRule talmudRuleFn := by
  intro cl E hv i j hxi hxj hi hj hij
  have heq := talmudRuleFn_eq_coord cl E
  rw [heq] at hxi hxj
  simp only [heq, List.getElem_map]
  exact coord_mono .talmud cl E hv _ _ hij

lemma prop_selfdual : SelfDualRule propAlloc := by
  intro cl E hv
  obtain ⟨h0, hE0, hEC⟩ := hv
  rw [propAlloc, propAlloc]
  by_cases h : cl.sum = 0
  · rw [if_pos h, if_pos h, zipWith_map_same]
    have hz : ∀ x ∈ cl, x = 0 := sum_zero_mem cl h0 h
    rw [List.map_congr_left (fun x hx => by
      rw [hz x hx]
      norm_num : ∀ x ∈ cl, (0:ℚ) + 0 = x)]
    simp
  · rw [if_neg h, if_neg h, zipWith_map_same]
    rw [List.map_congr_left (fun x hx => by
      field_simp
      ring : ∀ x ∈ cl, E * x / cl.sum + (cl.sum - E) * x / cl.sum = x)]
    simp

lemma prop_orderpres : OrderPreservingRule propAlloc := by
  intro cl E hv i j hxi hxj hi hj hij
  obtain ⟨h0, hE0, hEC⟩ := hv
  by_cases h : cl.sum = 0
  · have heq : propAlloc cl E = cl.map fun _ => (0:ℚ) := by rw [propAlloc, if_pos h]
    rw [heq] at hxi hxj
    simp only [heq, List.getElem_map]
    exact le_refl 0
  · have heq : propAlloc cl E = cl.map fun ci => E * ci / cl.sum := by
      rw [propAlloc, if_neg h]
    have hS : 0 < cl.sum := lt_of_le_of_ne (List.sum_nonneg h0) (Ne.symm h)
    rw [heq] at hxi hxj
    simp only [heq, List.getElem_map]
    exact (div_le_div_iff_of_pos_right hS).2 (mul_le_mul_of_nonneg_left hij hE0)

lemma prop_invariants : RuleInvariants propAlloc := by
  intro cl E hv
  obtain ⟨h0, hE0, hEC⟩ := hv
  by_cases h : cl.sum = 0
  · have heq : propAlloc cl E = cl.map fun _ => (0:ℚ) := by rw [propAlloc, if_pos h]
    have hE : E = 0 := le_antisymm (h ▸ hEC) hE0
    refine ⟨?_, by simp [heq], ?_⟩
    · rw [heq, hE]
      induction cl with
      | nil => simp
      | cons a l ih => simp at ih ⊢
    · intro i hxi hi
      rw [heq] at hxi
      simp only [heq, List.getElem_map]
      exact ⟨le_refl 0, h0 _ (List.getElem_mem hi)⟩
  · have heq : propAlloc cl E = cl.map fun ci => E * ci / cl.sum := by
      rw [propAlloc, if_neg h]
    have hS : 0 < cl.sum := lt_of_le_of_ne (List.sum_nonneg h0) (Ne.symm h)
    refine ⟨?_, by simp [heq], ?_⟩
    · rw [heq]
      rw [List.map_congr_left (fun x hx =>
        (div_mul_eq_mul_div E cl.sum x).symm : ∀ x ∈ cl, E * x / cl.sum = E / cl.sum * x)]
      rw [List.sum_map_mul_left]
      simp only [List.map_id_fun', id]
      field_simp
    · intro i hxi hi
      rw [heq] at hxi
      simp only [heq, List.getElem_map]
      have hx0 : 0 ≤ cl[i] := h0 _ (List.getElem_mem hi)
      constructor
      · exact div_nonneg (mul_nonneg hE0 hx0) hS.le
      · rw [div_le_iff₀ hS]
        nlinarith

/-! ### Claim theorems -/

/-- C1 counterexample: with only non-negativity required of a claim set, the
claim fails — for claims `[1]` and estate `2` (all values non-negative) the
proportional rule returns the full estate `2` to the single claimant, which
exceeds `min(c_1, E) = 1`. -/
theorem C1_counterexample :
    (∀ x ∈ ([1] : List ℚ), 0 ≤ x) ∧ (0 : ℚ) ≤ 2 ∧
      runRule .proportional ⟨[1], 2⟩ = .ok [2] ∧ ¬ ((2 : ℚ) ≤ min 1 2) := by
  refine ⟨by decide, by norm_num, ?_, by norm_num⟩
  norm_num [runRule, propAlloc]

/-- C1 (amended with the estate bounded by the total of the claims): for every
valid claim set — claims non-negative, `0 ≤ E ≤ Σ c_i` — and each of the four
rules, the rule succeeds and the returned allocation satisfies `Σ x_i = E`
exactly and `0 ≤ x_i ≤ min(c_i, E)` for every claimant. -/
theorem C1_invariants (cl : List ℚ) (E : ℚ) (h0 : ∀ x ∈ cl, 0 ≤ x) (hE0 : 0 ≤ E)
    (hEC : E ≤ cl.sum) (r : RuleId) :
    ∃ x : List ℚ, runRule r ⟨cl, E⟩ = .ok x ∧ x.sum = E ∧ x.length = cl.length ∧
      ∀ (i : ℕ) (hxi : i < x.length) (hi : i < cl.length),
        0 ≤ x[i] ∧ x[i] ≤ min cl[i] E := by
  refine ⟨cl.map (coordFn r cl E), run_ok r cl E ⟨h0, hE0, hEC⟩,
    coord_sum r cl E ⟨h0, hE0, hEC⟩, by simp, ?_⟩
  intro i hxi hi
  simp only [List.getElem_map]
  exact coord_bounds r cl E ⟨h0, hE0, hEC⟩ _ (List.getElem_mem hi)

/-- Witness for C1 at claims `[100, 50]`, estate `100`, rule `talmud`. -/
theorem C1_witness :
    ∃ x : List ℚ, runRule .talmud ⟨[100, 50], 100⟩ = .ok x ∧ x.sum = 100 ∧
      x.length = ([(100 : ℚ), 50] : List ℚ).length ∧
      ∀ (i : ℕ) (hxi : i < x.length) (hi : i < ([(100 : ℚ), 50] : List ℚ).length),
        0 ≤ x[i] ∧ x[i] ≤ min ([(100 : ℚ), 50] : List ℚ)[i] 100 :=
  C1_invariants [100, 50] 100 (by decide) (by norm_num) (by norm_num) .talmud

/-- C2 counterexample: for caps `[1]` and target `1` there is no unique
rational `lam ≥ 0` with `Σ min(d_i, lam) = T` — both `1` and `2` solve it. -/
theorem C2_counterexample :
    fsum [(1 : ℚ)] 1 = 1 ∧ fsum [(1 : ℚ)] 2 = 1 ∧
      ¬ ∃! lam : ℚ, 0 ≤ lam ∧ fsum [(1 : ℚ)] lam = 1 := by
  refine ⟨by norm_num [fsum], by norm_num [fsum], ?_⟩
  rintro ⟨lam, ⟨hlam0, hlameq⟩, huniq⟩
  have h1 : (1 : ℚ) = lam := huniq 1 ⟨by norm_num, by norm_num [fsum]⟩
  have h2 : (2 : ℚ) = lam := huniq 2 ⟨by norm_num, by norm_num [fsum]⟩
  rw [← h1] at h2
  norm_num at h2

/-- C2 (amended: "unique" replaced by "least"): for non-negative caps and a
target inside `[0, Σ d_i]` the threshold solver returns the least rational
`lam ≥ 0` with `Σ min(d_i, lam) = T`; the level is `0` when `T = 0` and the
maximum cap when `T = Σ d_i`; and the solver fails with a `DomainError`
exactly when the target is outside `[0, Σ d_i]` or some cap is negative. -/
theorem C2_threshold_solver (ds : List ℚ) (T : ℚ) :
    (thresholdSolver ds T = .error .domainError ↔
      ¬ ((∀ d ∈ ds, 0 ≤ d) ∧ 0 ≤ T ∧ T ≤ ds.sum)) ∧
    ((∀ d ∈ ds, 0 ≤ d) → 0 ≤ T → T ≤ ds.sum →
      thresholdSolver ds T = .ok (solveThreshold ds T) ∧
      0 ≤ solveThreshold ds T ∧
      fsum ds (solveThreshold ds T) = T ∧
      (∀ mu : ℚ, 0 ≤ mu → fsum ds mu = T → solveThreshold ds T ≤ mu) ∧
      (T = 0 → solveThreshold ds T = 0) ∧
      (T = ds.sum → (∀ d ∈ ds, d ≤ solveThreshold ds T) ∧
        (ds ≠ [] → solveThreshold ds T ∈ ds))) := by
  constructor
  · rw [thresholdSolver]
    split_ifs with h
    · exact iff_of_false (by simp) (not_not_intro h)
    · exact iff_of_true rfl h
  · intro h0 hT0 hTs
    obtain ⟨hge, heq, hlt⟩ := solve_correct ds T h0 hT0 hTs
    refine ⟨thresholdSolver_ok ds T h0 hT0 hTs, hge, heq, ?_, ?_, ?_⟩
    · intro mu hmu0 hmueq
      exact solve_le_of_fsum_ge ds T h0 hT0 hTs hmu0 hmueq.ge
    · intro hT
      have h0f : T ≤ fsum ds 0 := by rw [fsum_zero ds h0, hT]
      have hle := solve_le_of_fsum_ge ds T h0 hT0 hTs (le_refl 0) h0f
      linarith
    · intro hT
      have hall : ∀ d ∈ ds, min d (solveThreshold ds T) = d := by
        apply map_sum_le_pointwise_eq ds _ (fun d => d) (fun d _ => min_le_left _ _)
        have hid : (ds.map fun d => d).sum = ds.sum := by
          simp only [List.map_id_fun', id]
        rw [hid, ← fsum, heq, hT]
      have hub : ∀ d ∈ ds, d ≤ solveThreshold ds T := by
        intro d hd
        exact min_eq_left_iff.1 (hall d hd)
      refine ⟨hub, ?_⟩
      intro hne
      obtain ⟨M, hM, hMax⟩ := exists_max_mem ds hne
      have hfM : T ≤ fsum ds M := by rw [fsum_sum_of_ge ds M hMax, hT]
      have hleM := solve_le_of_fsum_ge ds T h0 hT0 hTs (h0 M hM) hfM
      have : solveThreshold ds T = M := le_antisymm hleM (hub M hM)
      rw [this]
      exact hM

/-- Witness for C2 at caps `[1, 2]` and target `2`. -/
theorem C2_witness :
    thresholdSolver [(1 : ℚ), 2] 2 = .ok (solveThreshold [(1 : ℚ), 2] 2) ∧
      fsum [(1 : ℚ), 2] (solveThreshold [(1 : ℚ), 2] 2) = 2 := by
  have h := (C2_threshold_solver [(1 : ℚ), 2] 2).2 (by decide) (by norm_num)
    (by norm_num)
  exact ⟨h.1, h.2.2.1⟩

/-- C3: for every valid claim set with total claims `C` and estate
`0 ≤ E ≤ C`, the Talmud rule is self-dual: the award vector at estate `E`
plus the award vector at the complementary estate `C - E` equals the claim
vector. -/
theorem C3_talmud_selfdual (c : List ℚ) (E : ℚ) (h0 : ∀ x ∈ c, 0 ≤ x) (hE0 : 0 ≤ E)
    (hEC : E ≤ c.sum) :
    ∃ x y : List ℚ, runRule .talmud ⟨c, E⟩ = .ok x ∧
      runRule .talmud ⟨c, c.sum - E⟩ = .ok y ∧
      List.zipWith (fun a b => a + b) x y = c :=
  ⟨talmudRuleFn c E, talmudRuleFn c (c.sum - E),
    run_talmud_ok c E ⟨h0, hE0, hEC⟩,
    run_talmud_ok c (c.sum - E) ⟨h0, by linarith, by linarith⟩,
    talmud_fn_selfdual c E ⟨h0, hE0, hEC⟩⟩

/-- Witness for C3 at claims `[100, 50]` and estate `100`. -/
theorem C3_witness :
    ∃ x y : List ℚ, runRule .talmud ⟨[100, 50], 100⟩ = .ok x ∧
      runRule .talmud ⟨[100, 50], ([(100 : ℚ), 50] : List ℚ).sum - 100⟩ = .ok y ∧
      List.zipWith (fun a b => a + b) x y = [100, 50] :=
  C3_talmud_selfdual [100, 50] 100 (by decide) (by norm_num) (by norm_num)

/-- C5 counterexample: for claims `{100, 200, 300}` and estate `300` the
Talmud rule yields `{50, 100, 150}`, not the `{50, 125, 125}` the claim
states. -/
theorem C5_counterexample :
    runRule .talmud ⟨[100, 200, 300], 300⟩ = .ok [50, 100, 150] ∧
      ([(50 : ℚ), 100, 150] : List ℚ) ≠ [50, 125, 125] := by
  constructor
  · norm_num [runRule, thresholdSolver, solveThreshold, walk, List.insertionSort,
      List.orderedInsert, Except.map]
  · norm_num

/-- C5 (amended): for claims `{100, 200, 300}` and estate `300` the Talmud
rule yields the allocation `{50, 100, 150}`. -/
theorem C5_talmud_estate300 :
    runRule .talmud ⟨[100, 200, 300], 300⟩ = .ok [50, 100, 150] := by
  norm_num [runRule, thresholdSolver, solveThreshold, walk, List.insertionSort,
    List.orderedInsert, Except.map]

/-- C4: for exactly two claimants with `c1 + c2 ≥ E` and `c2 ≤ E`, the Talmud
rule's piecewise construction yields the same allocation as the textual
concede-and-divide rule; in particular claims `{100, 50}` with estate `100`
yield `{75, 25}`. -/
theorem C4_talmud_concede_divide :
    (∀ c1 c2 E : ℚ, 0 ≤ c1 → 0 ≤ c2 → 0 ≤ E → E ≤ c1 + c2 → c2 ≤ E →
      runRule .talmud ⟨[c1, c2], E⟩ =
        .ok [(concedeAndDivide c1 c2 E).1, (concedeAndDivide c1 c2 E).2]) ∧
    runRule .talmud ⟨[100, 50], 100⟩ = .ok [75, 25] := by
  constructor
  · intro c1 c2 E h1 h2 hE0 hEsum hc2E
    have hvalid : ValidCS [c1, c2] E := by
      refine ⟨?_, hE0, ?_⟩
      · intro x hx
        rcases List.mem_cons.1 hx with rfl | hx
        · exact h1
        · rcases List.mem_cons.1 hx with rfl | hx
          · exact h2
          · simp at hx
      · simp only [List.sum_cons, List.sum_nil]
        linarith
    rw [run_talmud_ok _ _ hvalid, talmudRuleFn]
    have hmap : ([c1, c2] : List ℚ).map (fun ci => min ci E) = [min c1 E, c2] := by
      simp [min_eq_left hc2E]
    rw [hmap]
    have ha0 : 0 ≤ min c1 E := le_min h1 hE0
    have haE : min c1 E ≤ E := min_le_right c1 E
    have hEab : E ≤ min c1 E + c2 := by
      rcases le_total c1 E with h | h
      · rw [min_eq_left h]; linarith
      · rw [min_eq_right h]; linarith
    have hsum2 : ([min c1 E, c2] : List ℚ).sum = min c1 E + c2 := by simp
    rw [talmudAllocCore]
    by_cases hbr : 2 * E ≤ ([min c1 E, c2] : List ℚ).sum
    · have hbr' : 2 * E ≤ min c1 E + c2 := by rw [hsum2] at hbr; exact hbr
      have haeq : min c1 E = E := le_antisymm haE (by linarith)
      have hceq : c2 = E := le_antisymm hc2E (by linarith)
      rw [if_pos hbr, haeq, hceq]
      have hcaps : ([E, E] : List ℚ).map (fun x => x / 2) = [E / 2, E / 2] := by simp
      rw [hcaps]
      have hfE : fsum [E / 2, E / 2] (E / 2) = E := by
        rw [fsum_cons, fsum_cons, fsum_nil, min_self]
        ring
      have hcand := alloc_candidate [E / 2, E / 2] E
        (by
          intro d hd
          rcases List.mem_cons.1 hd with rfl | hd
          · linarith
          · rcases List.mem_cons.1 hd with rfl | hd
            · linarith
            · simp at hd)
        hE0 (by rw [List.sum_cons, List.sum_cons, List.sum_nil]; linarith) (E / 2)
        (by linarith) hfE
      have hc : min (E / 2) (solveThreshold [E / 2, E / 2] E) = E / 2 := by
        rw [hcand (E / 2) (by simp), min_self]
      simp only [List.map_cons, List.map_nil, hc]
      have hc1E : E ≤ c1 := by
        by_contra hcon
        push_neg at hcon
        rw [min_eq_left hcon.le] at haeq
        linarith
      simp [concedeAndDivide, min_eq_right hc1E, hceq ▸ min_eq_left hc2E]
    · push_neg at hbr
      rw [hsum2] at hbr
      rw [if_neg (by rw [hsum2]; push_neg; exact hbr), hsum2]
      have hcaps : ([min c1 E, c2] : List ℚ).map (fun x => x / 2)
          = [min c1 E / 2, c2 / 2] := by simp
      rw [hcaps]
      have hh0 : ∀ d ∈ ([min c1 E / 2, c2 / 2] : List ℚ), 0 ≤ d := by
        intro d hd
        rcases List.mem_cons.1 hd with rfl | hd
        · linarith
        · rcases List.mem_cons.1 hd with rfl | hd
          · linarith
          · simp at hd
      have hfmu : fsum [min c1 E / 2, c2 / 2] ((min c1 E + c2 - E) / 2)
          = min c1 E + c2 - E := by
        rw [fsum_cons, fsum_cons, fsum_nil,
          min_eq_right (by linarith : (min c1 E + c2 - E) / 2 ≤ min c1 E / 2),
          min_eq_right (by linarith : (min c1 E + c2 - E) / 2 ≤ c2 / 2)]
        ring
      have hcand := alloc_candidate [min c1 E / 2, c2 / 2] (min c1 E + c2 - E) hh0
        (by linarith) (by simp; linarith) ((min c1 E + c2 - E) / 2) (by linarith) hfmu
      have hx1 : min (min c1 E / 2) (solveThreshold [min c1 E / 2, c2 / 2]
          (min c1 E + c2 - E)) = (min c1 E + c2 - E) / 2 := by
        rw [hcand _ (by simp), min_eq_right (by linarith)]
      have hx2 : min (c2 / 2) (solveThreshold [min c1 E / 2, c2 / 2]
          (min c1 E + c2 - E)) = (min c1 E + c2 - E) / 2 := by
        rw [hcand _ (by simp), min_eq_right (by linarith)]
      simp only [List.map_cons, List.map_nil, hx1, hx2]
      simp [concedeAndDivide, min_eq_left hc2E]
      constructor <;> ring
  · norm_num [runRule, thresholdSolver, solveThreshold, walk, List.insertionSort,
      List.orderedInsert, Except.map]

/-- Witness for C4 at claims `{100, 50}` and estate `100`. -/
theorem C4_witness :
    runRule .talmud ⟨[100, 50], 100⟩ =
      .ok [(concedeAndDivide 100 50 100).1, (concedeAndDivide 100 50 100).2] :=
  C4_talmud_concede_divide.1 100 50 100 (by norm_num) (by norm_num) (by norm_num)
    (by norm_num) (by norm_num)

/-- C6 counterexample: the proportional rule satisfies the allocation
invariants, self-duality and order preservation on all valid claim sets, yet
differs from the Talmud construction at claims `{100, 50}`, estate `100` —
so self-duality plus order preservation do not single out the Talmud rule. -/
theorem C6_counterexample :
    RuleInvariants propAlloc ∧ SelfDualRule propAlloc ∧ OrderPreservingRule propAlloc ∧
      propAlloc [100, 50] 100 ≠ talmudRuleFn [100, 50] 100 := by
  refine ⟨prop_invariants, prop_selfdual, prop_orderpres, ?_⟩
  norm_num [propAlloc, talmudRuleFn, talmudAllocCore, thresholdSolver, solveThreshold,
    walk, List.insertionSort, List.orderedInsert, fsum]

/-- C6 (amended): the Talmud construction is self-dual and order preserving,
but it is not the unique rule with those two properties: the proportional rule
also satisfies both (together with the allocation invariants) while producing
a different allocation for claims `{100, 50}` and estate `100`. -/
theorem C6_not_unique :
    SelfDualRule talmudRuleFn ∧ OrderPreservingRule talmudRuleFn ∧
      SelfDualRule propAlloc ∧ OrderPreservingRule propAlloc ∧
      RuleInvariants propAlloc ∧
      propAlloc [100, 50] 100 ≠ talmudRuleFn [100, 50] 100 := by
  refine ⟨talmud_fn_selfdual, talmud_fn_orderpres, prop_selfdual, prop_orderpres,
    prop_invariants, ?_⟩
  norm_num [propAlloc, talmudRuleFn, talmudAllocCore, thresholdSolver, solveThreshold,
    walk, List.insertionSort, List.orderedInsert, fsum]

/-- C7: for every valid claim set and each of the four rules, the rule
succeeds and the allocation is order preserving: a claimant with a smaller
claim never receives a strictly larger award. -/
theorem C7_order_preservation (cl : List ℚ) (E : ℚ) (h0 : ∀ x ∈ cl, 0 ≤ x)
    (hE0 : 0 ≤ E) (hEC : E ≤ cl.sum) (r : RuleId) :
    ∃ x : List ℚ, runRule r ⟨cl, E⟩ = .ok x ∧
      ∀ (i j : ℕ) (hxi : i < x.length) (hxj : j < x.length)
        (hi : i < cl.length) (hj : j < cl.length),
        cl[i] ≤ cl[j] → x[i] ≤ x[j] := by
  refine ⟨cl.map (coordFn r cl E), run_ok r cl E ⟨h0, hE0, hEC⟩, ?_⟩
  intro i j hxi hxj hi hj hij
  simp only [List.getElem_map]
  exact coord_mono r cl E ⟨h0, hE0, hEC⟩ _ _ hij

/-- Witness for C7 at claims `[100, 50]`, estate `100`, rule `cel`. -/
theorem C7_witness :
    ∃ x : List ℚ, runRule .cel ⟨[100, 50], 100⟩ = .ok x ∧
      ∀ (i j : ℕ) (hxi : i < x.length) (hxj : j < x.length)
        (hi : i < ([(100 : ℚ), 50] : List ℚ).length)
        (hj : j < ([(100 : ℚ), 50] : List ℚ).length),
        ([(100 : ℚ), 50] : List ℚ)[i] ≤ ([(100 : ℚ), 50] : List ℚ)[j] → x[i] ≤ x[j] :=
  C7_order_preservation [100, 50] 100 (by decide) (by norm_num) (by norm_num) .cel

/-- C8: claims exceeding the estate are irrelevant by default — for any claim
list, estate and rule, evaluating the rule on the raw claims gives the same
result as evaluating it on the claims truncated to the estate, because the
engine caps claims at the estate before any rule runs. -/
theorem C8_truncation_default (claims : List ℚ) (E : ℚ) (r : RuleId) :
    runRule r ⟨claims, E⟩ = runRule r ⟨claims.map fun ci => min ci E, E⟩ := by
  have hcap : (claims.map fun ci => min ci E).map (fun ci => min ci E)
      = claims.map fun ci => min ci E := by
    rw [List.map_map]
    apply List.map_congr_left
    intro x _
    simp only [Function.comp_def]
    rw [min_eq_left (min_le_right x E)]
  cases r <;> simp only [runRule] <;> rw [hcap]

/-- C9: claim-set construction fails with a `ClaimError` exactly when some
claim is negative, the estate is negative, or the claim list is empty with a
non-zero estate; and no rule ever produces a `ClaimError` — rule evaluation
can only fail with the solver's `DomainError`. -/
theorem C9_claim_error :
    (∀ (claims : List ℚ) (estate : ℚ),
        mkClaimSet claims estate = .error .claimError ↔
          ((∃ x ∈ claims, x < 0) ∨ estate < 0 ∨ (claims = [] ∧ estate ≠ 0))) ∧
    ∀ (r : RuleId) (cs : ClaimSet), runRule r cs ≠ .error .claimError := by
  constructor
  · intro claims estate
    rw [mkClaimSet]
    split_ifs with h
    · exact iff_of_true rfl h
    · exact iff_of_false (by simp) h
  · intro r cs
    cases r with
    | proportional => simp [runRule]
    | cea =>
      simp only [runRule, thresholdSolver]
      split_ifs <;> simp [Except.map]
    | cel =>
      simp only [runRule, thresholdSolver]
      split_ifs <;> simp [Except.map]
    | talmud =>
      simp only [runRule, thresholdSolver]
      split_ifs <;> simp [Except.map]

/-- C10: on the Mishnah's second case — claims `{100, 50}`, estate `100` —
the constrained-equal-losses rule produces exactly the allocation `{75, 25}`
of the Talmud (concede-and-divide) rule, each claimant losing exactly `25`. -/
theorem C10_cel_matches_concede :
    runRule .cel ⟨[100, 50], 100⟩ = .ok [75, 25] ∧
      runRule .talmud ⟨[100, 50], 100⟩ = .ok [75, 25] ∧
      (100 : ℚ) - 75 = 25 ∧ (50 : ℚ) - 25 = 25 := by
  refine ⟨?_, ?_, by norm_num, by norm_num⟩ <;>
    norm_num [runRule, thresholdSolver, solveThreshold, walk, List.insertionSort,
      List.orderedInsert, Except.map]
